import Mathlib

/-!
Verification of the `List<T>` glib wrapper (src/src/list.rs).

The Rust type `List<T>` holds one field: a raw `*mut C_GList` head pointer.
The native chain is a doubly-linked list of nodes; each node carries a
`data` pointer obtained by boxing a `T` (`mem::transmute(Box::new(data))`).
The native functions `g_list_append`, `g_list_prepend`, `g_list_insert`,
`g_list_reverse`, `g_list_concat`, `g_list_nth_data`, `g_list_first`,
`g_list_last`, `g_list_length`, `g_list_free`, `g_list_copy` are declared in
an `ffi` module that is not part of this repository; their behaviour is
modelled from the spec (sections 4.1 and 9 describe each operation and the
undefined behaviours of the original).

Two models are developed:

1. a value-level model, where a head pointer is identified with the list of
   values reachable from it through the `next` links (the null pointer is
   the empty list).  `Option` results model the C functions returning a
   null pointer, which the wrapper dereferences or transmutes unchecked;
2. a heap-level model (`GHeap` below), with explicit node and box
   addresses, used for the claims about ownership: double free after
   `concat`, the dangling pointer left by `clear`, and the sharing of
   boxed values by `clone` (`g_list_copy` is a shallow copy).
-/

namespace GlibList

variable {α : Type _}

/-- Modelled from the spec: `append(value)` adds value as new tail
(`g_list_append` links a fresh node after the last node and returns the
head of the resulting chain).  The wrapper stores the returned head in
`self.pointer` (list.rs line 50). -/
def g_list_append (p : List α) (x : α) : List α :=
  p ++ [x]

/-- Modelled from the spec: `prepend(value)` adds value as new head;
`g_list_prepend` returns the new head, stored by the wrapper
(list.rs line 56). -/
def g_list_prepend (p : List α) (x : α) : List α :=
  x :: p

/-- Modelled from the spec: `g_list_nth_data(list, n)` returns the data
pointer of the node at index `n` counting from the head, or the null
pointer when `n` is not a valid index (the spec, section 9, records that
the original dereferences an absent node on out-of-range access).
`none` is the null return. -/
def g_list_nth_data (p : List α) (n : Nat) : Option α :=
  p.get? n

/-- Modelled from the spec: `len()` is an O(n) count of reachable nodes;
`g_list_length` walks the chain (list.rs line 109). -/
def g_list_length (p : List α) : Nat :=
  p.length

/-- Modelled from the spec: `reverse()` reverses link direction in place;
`g_list_reverse` returns the new head (the old tail), stored by the
wrapper (list.rs line 90). -/
def g_list_reverse (p : List α) : List α :=
  p.reverse

/-- Modelled from the spec: `insert(value, position)` inserts before the
node currently at `position` (0-based); if `position` is negative or not
less than the length, it appends at the tail.  `g_list_insert` returns the
head of the resulting chain, stored by the wrapper (list.rs line 78).
The position is a C `gint`, modelled by `Int`. -/
def g_list_insert (p : List α) (x : α) (pos : Int) : List α :=
  if pos < 0 then p ++ [x]
  else if (p.length : Int) ≤ pos then p ++ [x]
  else p.take pos.toNat ++ x :: p.drop pos.toNat

/-- Modelled from the spec: `g_list_concat(list1, list2)` links the chain
of `list2` after the tail of `list1` in place and returns the head of the
combined chain: the head of `list1` when `list1` is not null, otherwise
the head of `list2`. -/
def g_list_concat (p q : List α) : List α :=
  p ++ q

/- Wrapper operations, from src/src/list.rs.  The wrapper state is the
head pointer, so at value level a wrapper list is the chain it reaches. -/

/-- `List::append` (list.rs lines 48-52): boxes the value and stores the
head returned by `g_list_append`. -/
def append (p : List α) (x : α) : List α :=
  g_list_append p x

/-- `List::prepend` (list.rs lines 54-58): boxes the value and stores the
head returned by `g_list_prepend`. -/
def prepend (p : List α) (x : α) : List α :=
  g_list_prepend p x

/-- `List::nth` (list.rs lines 60-64): transmutes the pointer returned by
`g_list_nth_data` straight into `&T` with no bounds check.  `some v` is a
reference to the boxed value `v`; `none` is the transmute of the null
pointer returned for an out-of-range index, which is not a reported
error condition. -/
def nth (p : List α) (n : Nat) : Option α :=
  g_list_nth_data p n

/-- The cast `_rhs as u32` applied by the `Index` impl (list.rs line 129)
to the `usize` index: truncation modulo 2 to the 32. -/
def usizeToU32 (i : Nat) : Nat :=
  i % 4294967296

/-- `Index<usize> for List` (list.rs lines 125-131): `self.nth(_rhs as u32)`. -/
def index (p : List α) (i : Nat) : Option α :=
  nth p (usizeToU32 i)

/-- `List::first` (list.rs lines 71-74): calls `g_list_first` on the head
pointer (the identity on a head) and dereferences the resulting node
pointer unconditionally.  `none` is the dereference of the null pointer
returned for the empty list, which is not a reported error condition. -/
def first (p : List α) : Option α :=
  match p with
  | [] => none
  | x :: _ => some x

/-- `List::last` (list.rs lines 66-69): calls `g_list_last` and
dereferences the resulting node pointer unconditionally.  `none` is the
dereference of the null pointer returned for the empty list. -/
def last (p : List α) : Option α :=
  p.getLast?

/-- `List::concat` (list.rs lines 82-86): calls
`g_list_concat(self.pointer, list.unwrap())` and DISCARDS the returned
head; `self.pointer` is never reassigned.  When `self.pointer` is null it
stays null, so the receiver remains the empty chain; otherwise the chain
reachable from the unchanged head now continues into the other chain.
(The freeing of the absorbed nodes by the `Drop` of the consumed argument
is invisible at value level; see the heap model.) -/
def concat (p q : List α) : List α :=
  match p with
  | [] => []
  | _ => g_list_concat p q

/-- `List::reverse` (list.rs lines 88-92): stores the head returned by
`g_list_reverse`. -/
def reverse (p : List α) : List α :=
  g_list_reverse p

/-- `List::extend` (list.rs lines 118-122): `for elem in it self.append(elem)`. -/
def extend (p : List α) (s : List α) : List α :=
  s.foldl (fun q x => append q x) p

/-- `FromIterator for List` (list.rs lines 161-167): a new empty list
extended with the iterator.  `from_vec` (lines 39-41) delegates to it. -/
def from_iter (s : List α) : List α :=
  extend [] s

/-- `List::iter` (list.rs lines 94-99): an `Elem` cursor whose pointer is
`g_list_first(self.pointer)`, the head itself; the cursor state is the
chain still to be visited. -/
def iter (p : List α) : List α :=
  p

/-- `Iterator for Elem::next` (list.rs lines 133-145): if the pointer is
null return `None`, else read the data of the current node and advance to
`next`. -/
def elemNext : List α → Option (α × List α)
  | [] => none
  | x :: xs => some (x, xs)

/-- `List::rev_iter` (list.rs lines 101-106): a `RevElem` cursor whose
pointer is `g_list_last(self.pointer)`.  Its state is the chain of nodes
reachable backwards through `prev`, in visiting order, so the initial
state is the reversal of the list. -/
def rev_iter (p : List α) : List α :=
  p.reverse

/-- `Iterator for RevElem::next` (list.rs lines 147-159): same null check
and data read as `Elem::next`, advancing through `prev`; on the backward
encoding of the state this is the same step function. -/
def revElemNext : List α → Option (α × List α)
  | [] => none
  | x :: xs => some (x, xs)

/-- Draining a cursor: the sequence of values produced by repeated calls
to `next` until it returns `None`. -/
def drain : List α → List α
  | [] => []
  | x :: xs => x :: drain xs

end GlibList

/-! Heap-level model.  A node of the native chain holds the address of a
boxed value (`data`), and the addresses of the previous and next nodes
(`none` is the null pointer).  The heap is an allocation map for nodes
and one for boxes; freeing removes the entry, so a dereference of a
freed or null address is detected (`none` results model undefined
behaviour of the C code). -/

namespace GlibList

/-- One native list node: a data pointer (box address) and the two links. -/
structure GNode where
  data : Nat
  prev : Option Nat
  next : Option Nat
deriving DecidableEq, Repr

/-- The native heap: live nodes and live boxed values, each keyed by
address, with bump allocators. -/
structure GHeap (α : Type _) where
  nodes : List (Nat × GNode)
  nodeCtr : Nat
  boxes : List (Nat × α)
  boxCtr : Nat
deriving Repr

def GHeap.empty : GHeap α :=
  ⟨[], 0, [], 0⟩

def GHeap.getNode (h : GHeap α) (a : Nat) : Option GNode :=
  (h.nodes.find? (fun e => e.1 == a)).map Prod.snd

def GHeap.setNode (h : GHeap α) (a : Nat) (n : GNode) : GHeap α :=
  { h with nodes := h.nodes.map (fun e => if e.1 == a then (a, n) else e) }

def GHeap.allocNode (h : GHeap α) (n : GNode) : GHeap α × Nat :=
  ({ h with nodes := (h.nodeCtr, n) :: h.nodes, nodeCtr := h.nodeCtr + 1 },
   h.nodeCtr)

def GHeap.freeNode (h : GHeap α) (a : Nat) : GHeap α :=
  { h with nodes := h.nodes.filter (fun e => e.1 != a) }

def GHeap.getBox (h : GHeap α) (a : Nat) : Option α :=
  (h.boxes.find? (fun e => e.1 == a)).map Prod.snd

def GHeap.allocBox (h : GHeap α) (x : α) : GHeap α × Nat :=
  ({ h with boxes := (h.boxCtr, x) :: h.boxes, boxCtr := h.boxCtr + 1 },
   h.boxCtr)

/-- Modelled from the spec: `g_list_last` follows `next` links from the
given node to the last node of the chain; on the null pointer it returns
null.  Fuel bounds the walk; `none` means the walk dereferenced a freed
node (undefined behaviour) or ran out of fuel. -/
def g_list_last_h (h : GHeap α) : Option Nat → Nat → Option (Option Nat)
  | none, _ => some none
  | some _, 0 => none
  | some a, fuel + 1 =>
      match h.getNode a with
      | none => none
      | some n =>
          match n.next with
          | none => some (some a)
          | some b => g_list_last_h h (some b) fuel

/-- Modelled from the spec: `g_list_append` allocates a fresh node for the
data pointer, links it after the last node of the chain (or makes it the
chain when the head is null), and returns the head of the result. -/
def g_list_append_h (h : GHeap α) (p : Option Nat) (box : Nat) (fuel : Nat) :
    Option (GHeap α × Option Nat) :=
  let al := h.allocNode ⟨box, none, none⟩
  let h1 := al.1
  let na := al.2
  match p with
  | none => some (h1, some na)
  | some a =>
      match g_list_last_h h1 (some a) fuel with
      | none => none
      | some none => none
      | some (some la) =>
          match h1.getNode la with
          | none => none
          | some ln =>
              let h2 := h1.setNode la { ln with next := some na }
              let h3 := h2.setNode na ⟨box, some la, none⟩
              some (h3, some a)

/-- Modelled from the spec: `g_list_concat(list1, list2)` attaches the
chain of `list2` after the last node of `list1` in place (when `list1` is
null the combined chain is just `list2`) and returns the head of the
combined chain. -/
def g_list_concat_h (h : GHeap α) (p1 p2 : Option Nat) (fuel : Nat) :
    Option (GHeap α × Option Nat) :=
  match p2 with
  | none => some (h, p1)
  | some b =>
      match g_list_last_h h p1 fuel with
      | none => none
      | some tmp =>
          let h1 :=
            match tmp with
            | none => h
            | some la =>
                match h.getNode la with
                | none => h
                | some ln => h.setNode la { ln with next := some b }
          match h1.getNode b with
          | none => none
          | some bn =>
              some (h1.setNode b { bn with prev := tmp },
                    if tmp.isSome then p1 else p2)

/-- Modelled from the spec: `g_list_free` walks the chain through `next`
and frees every node.  It does not free the data pointers: the boxed
values handed to the native allocator stay allocated.  `none` means a
freed node was dereferenced (undefined behaviour). -/
def g_list_free_h (h : GHeap α) : Option Nat → Nat → Option (GHeap α)
  | none, _ => some h
  | some _, 0 => none
  | some a, fuel + 1 =>
      match h.getNode a with
      | none => none
      | some n => g_list_free_h (h.freeNode a) n.next fuel

/-- Modelled from the spec: `g_list_length` counts the nodes reachable
through `next`.  `none` means the count walked into a freed node
(undefined behaviour). -/
def g_list_length_h (h : GHeap α) : Option Nat → Nat → Option Nat
  | none, _ => some 0
  | some _, 0 => none
  | some a, fuel + 1 =>
      match h.getNode a with
      | none => none
      | some n => (g_list_length_h h n.next fuel).map (· + 1)

/-- Observation: the sequence of boxed values reachable from a head
pointer through `next`.  `none` means the walk dereferenced a freed node
or a freed box (undefined behaviour). -/
def chainData (h : GHeap α) : Option Nat → Nat → Option (List α)
  | none, _ => some []
  | some _, 0 => none
  | some a, fuel + 1 =>
      match h.getNode a with
      | none => none
      | some n =>
          match h.getBox n.data with
          | none => none
          | some v => (chainData h n.next fuel).map (v :: ·)

/-- Observation: the node addresses of a chain, in order. -/
def chainNodes (h : GHeap α) : Option Nat → Nat → Option (List Nat)
  | none, _ => some []
  | some _, 0 => none
  | some a, fuel + 1 =>
      match h.getNode a with
      | none => none
      | some n => (chainNodes h n.next fuel).map (a :: ·)

/-- Observation: the data (box) addresses of a chain, in order. -/
def chainBoxes (h : GHeap α) : Option Nat → Nat → Option (List Nat)
  | none, _ => some []
  | some _, 0 => none
  | some a, fuel + 1 =>
      match h.getNode a with
      | none => none
      | some n => (chainBoxes h n.next fuel).map (n.data :: ·)

/-- Builds a fresh doubly-linked chain of new nodes over a given sequence
of data addresses, returning the new head.  Allocation is sequential, so
the successor of the node allocated at the current counter is the node
the recursive call allocates at the next counter value (or null at the
end of the sequence). -/
def buildChain (h : GHeap α) (pr : Option Nat) : List Nat → GHeap α × Option Nat
  | [] => (h, none)
  | d :: ds =>
      let na := h.nodeCtr
      let nxt : Option Nat := if ds.isEmpty then none else some (na + 1)
      let h1 : GHeap α :=
        { h with nodes := (na, ⟨d, pr, nxt⟩) :: h.nodes, nodeCtr := na + 1 }
      ((buildChain h1 (some na) ds).1, some na)

/-- Modelled from the spec: `g_list_copy` copies the node chain, one
fresh node per original node, each new node carrying the SAME data
pointer as the original (a shallow copy: the boxed values are not
duplicated), and returns the head of the new chain. -/
def g_list_copy_h (h : GHeap α) (p : Option Nat) (fuel : Nat) :
    Option (GHeap α × Option Nat) :=
  match chainBoxes h p fuel with
  | none => none
  | some ds => some (buildChain h none ds)

/- Wrapper operations at heap level, from src/src/list.rs. -/

/-- `List::append` (list.rs lines 48-52): box the value
(`Box::new` + `transmute`), call `g_list_append`, store the returned
head. -/
def appendH (h : GHeap α) (p : Option Nat) (x : α) (fuel : Nat) :
    Option (GHeap α × Option Nat) :=
  let ab := h.allocBox x
  g_list_append_h ab.1 p ab.2 fuel

/-- `List::concat` (list.rs lines 82-86): call
`g_list_concat(self.pointer, list.unwrap())`, DISCARD the returned head
(`self.pointer` is not reassigned); the consumed argument list then goes
out of scope and its `Drop` impl (list.rs lines 177-181) calls
`g_list_free` on its unchanged pointer.  Returns the new heap and the
receiver pointer, which is the old `self.pointer`. -/
def concatH (h : GHeap α) (p1 p2 : Option Nat) (fuel : Nat) :
    Option (GHeap α × Option Nat) :=
  match g_list_concat_h h p1 p2 fuel with
  | none => none
  | some (h1, _) =>
      match g_list_free_h h1 p2 fuel with
      | none => none
      | some h2 => some (h2, p1)

/-- `List::clear` (list.rs lines 112-116): call `g_list_free` on the
pointer and leave `self.pointer` unchanged (it is not reset to null). -/
def clearH (h : GHeap α) (p : Option Nat) (fuel : Nat) :
    Option (GHeap α × Option Nat) :=
  match g_list_free_h h p fuel with
  | none => none
  | some h2 => some (h2, p)

/-- `Clone for List` (list.rs lines 169-175): wrap the head returned by
`g_list_copy(self.pointer)`.  Note the impl has no `T: Clone` bound, so
it can never duplicate the boxed values. -/
def cloneH (h : GHeap α) (p : Option Nat) (fuel : Nat) :
    Option (GHeap α × Option Nat) :=
  g_list_copy_h h p fuel

/-- Builds a wrapper list by repeated `List::append` starting from
`List::new()` (a null pointer), as `from_vec` / `from_iter` do. -/
def buildListH (h : GHeap α) (s : List α) (fuel : Nat) :
    Option (GHeap α × Option Nat) :=
  s.foldl
    (fun acc x =>
      match acc with
      | none => none
      | some (h1, p1) => appendH h1 p1 x fuel)
    (some (h, none))

/-- Wrapper `insert` (list.rs lines 76-80): boxes the value and stores the
head returned by `g_list_insert`. -/
def insert (p : List α) (x : α) (pos : Int) : List α :=
  g_list_insert p x pos

/-- Draining a reverse cursor through `revElemNext` until it returns
`None` (the same consumption loop as `drain`, stepping by `prev`). -/
def drainRev : List α → List α
  | [] => []
  | x :: xs => x :: drainRev xs

/- Concrete heap scenarios. -/

/-- The spec scenario for `concat`: build `[1, 2]` and `[3, 4]` by
repeated append, call `List::concat` on the first with the second as
argument (which also runs the `Drop` of the consumed argument), then read
the receiver chain. -/
def scenarioConcatDrop : Option (Option (List Nat)) := do
  let (h1, p1) ← buildListH GHeap.empty [1, 2] 100
  let (h2, p2) ← buildListH h1 [3, 4] 100
  let (h3, r1) ← concatH h2 p1 p2 100
  pure (chainData h3 r1 100)

/-- Concatenating a non-empty list onto an empty receiver, then reading
the receiver chain. -/
def scenarioConcatEmpty : Option (Option (List Nat)) := do
  let (h1, p2) ← buildListH GHeap.empty [3, 4] 100
  let (h2, r) ← concatH h1 none p2 100
  pure (chainData h2 r 100)

/-- Build `[1]`, call `List::clear`, then observe `len()` (a
`g_list_length` walk from the unchanged pointer) and the number of boxed
values still allocated. -/
def scenarioClear : Option (Option Nat × Nat) := do
  let (h1, p1) ← buildListH GHeap.empty [1] 100
  let (h2, p2) ← clearH h1 p1 100
  pure (g_list_length_h h2 p2 100, h2.boxes.length)

/-- Build `[1, 2]` and clone it; keep the heap and both head pointers. -/
def cloneSetup : Option (GHeap Nat × Option Nat × Option Nat) := do
  let (h1, p) ← buildListH GHeap.empty [1, 2] 100
  let (h2, q) ← cloneH h1 p 100
  pure (h2, p, q)

/-- The data (box) addresses of the original chain after the clone. -/
def cloneOrigBoxes : Option (Option (List Nat)) :=
  cloneSetup.map fun s => chainBoxes s.1 s.2.1 100

/-- The data (box) addresses of the cloned chain. -/
def cloneCopyBoxes : Option (Option (List Nat)) :=
  cloneSetup.map fun s => chainBoxes s.1 s.2.2 100

/-- Full observation of the clone scenario: value sequences, node
addresses and box addresses of the original and of the clone. -/
def cloneObservations :
    Option (Option (List Nat) × Option (List Nat) × Option (List Nat) ×
      Option (List Nat) × Option (List Nat) × Option (List Nat)) :=
  cloneSetup.map fun s =>
    (chainData s.1 s.2.1 100, chainData s.1 s.2.2 100,
     chainNodes s.1 s.2.1 100, chainNodes s.1 s.2.2 100,
     chainBoxes s.1 s.2.1 100, chainBoxes s.1 s.2.2 100)

/-- Append `9` to the clone, then observe the length of the original. -/
def scenarioCloneAppend : Option (Option Nat) := do
  let (h2, p, q) ← cloneSetup
  let (h3, _) ← appendH h2 q 9 100
  pure (g_list_length_h h3 p 100)

/-- Executable check that, starting from head pointer `p`, the chain in
heap `h` visits exactly the node addresses `as`, following `next`. -/
def linkCheck (h : GHeap α) : Option Nat → List Nat → Bool
  | none, [] => true
  | some a, a2 :: as =>
      a == a2 &&
        (match h.getNode a with
         | none => false
         | some n => linkCheck h n.next as)
  | none, _ :: _ => false
  | some _, [] => false

/-- Executable check that, starting from head pointer `p`, the chain in
heap `h` visits the node addresses `as`, whose data pointers are the box
addresses `bs`, holding the values `vs`. -/
def chainCheck [DecidableEq α] (h : GHeap α) :
    Option Nat → List Nat → List Nat → List α → Bool
  | none, [], [], [] => true
  | some a, a2 :: as, b :: bs, v :: vs =>
      a == a2 &&
        (match h.getNode a with
         | none => false
         | some n =>
             n.data == b &&
               (match h.getBox n.data with
                | none => false
                | some w => decide (w = v)) &&
               chainCheck h n.next as bs vs)
  | _, _, _, _ => false

/-- The concrete heap for the list `[1, 2]` built by two appends: node 0
(box 0, value 1) linked to node 1 (box 1, value 2), head pointer node 0.
This is the value of `buildListH GHeap.empty [1, 2]`. -/
def demoHeap : GHeap Nat :=
  ⟨[(1, ⟨1, some 0, none⟩), (0, ⟨0, none, some 1⟩)], 2, [(1, 2), (0, 1)], 2⟩

end GlibList

/-! Helper lemmas. -/

namespace GlibList

variable {α : Type _}

theorem drain_step (st : List α) :
    drain st = match elemNext st with
      | none => []
      | some (x, s) => x :: drain s := by
  cases st <;> rfl

theorem drain_eq (st : List α) : drain st = st := by
  induction st with
  | nil => rfl
  | cons x xs ih => simpa [drain] using ih

theorem drainRev_step (st : List α) :
    drainRev st = match revElemNext st with
      | none => []
      | some (x, s) => x :: drainRev s := by
  cases st <;> rfl

theorem drainRev_eq (st : List α) : drainRev st = st := by
  induction st with
  | nil => rfl
  | cons x xs ih => simpa [drainRev] using ih

theorem extend_eq (p s : List α) : extend p s = p ++ s := by
  induction s generalizing p with
  | nil => simp [extend]
  | cons x xs ih =>
      simpa [extend, append, g_list_append, List.append_assoc] using ih (p ++ [x])

theorem from_iter_eq (s : List α) : from_iter s = s := by
  simp [from_iter, extend_eq]

theorem getBox_congr (h1 h2 : GHeap α) (hb : h1.boxes = h2.boxes) (b : Nat) :
    h1.getBox b = h2.getBox b := by
  simp [GHeap.getBox, hb]

theorem getNode_allocBox (h : GHeap α) (x : α) (a : Nat) :
    (h.allocBox x).1.getNode a = h.getNode a := rfl

theorem find?_map_update (ns : List (Nat × GNode)) (la a : Nat) (n : GNode)
    (hne : a ≠ la) :
    (ns.map fun e => if e.1 == la then (la, n) else e).find? (fun e => e.1 == a)
      = ns.find? (fun e => e.1 == a) := by
  induction ns with
  | nil => rfl
  | cons e es ih =>
      rw [List.map_cons]
      by_cases hel : e.1 = la
      · rw [if_pos (by simpa using hel)]
        rw [List.find?_cons_of_neg _ (by simpa using Ne.symm hne),
            List.find?_cons_of_neg _ (by simp [hel]; exact Ne.symm hne)]
        exact ih
      · rw [if_neg (by simpa using hel)]
        by_cases hea : e.1 = a
        · rw [List.find?_cons_of_pos _ (by simpa using hea),
              List.find?_cons_of_pos _ (by simpa using hea)]
        · rw [List.find?_cons_of_neg _ (by simpa using hea),
              List.find?_cons_of_neg _ (by simpa using hea)]
          exact ih

theorem getNode_setNode_ne (h : GHeap α) (la a : Nat) (n : GNode) (hne : a ≠ la) :
    (h.setNode la n).getNode a = h.getNode a := by
  simp only [GHeap.setNode, GHeap.getNode]
  rw [find?_map_update _ _ _ _ hne]

theorem getLast?_mem_of_eq_some {l : List Nat} {a : Nat} (h : l.getLast? = some a) :
    a ∈ l := by
  have hx : a ∈ l.getLast? := by simp [h]
  obtain ⟨hne, rfl⟩ := List.mem_getLast?_eq_getLast hx
  exact List.getLast_mem hne

theorem chainCheck_sound [DecidableEq α] (h : GHeap α) :
    ∀ (as : List Nat) (p : Option Nat) (bs : List Nat) (vs : List α) (fuel : Nat),
      chainCheck h p as bs vs = true → as.length < fuel →
      chainNodes h p fuel = some as ∧ chainBoxes h p fuel = some bs ∧
      chainData h p fuel = some vs ∧ g_list_length_h h p fuel = some as.length := by
  intro as
  induction as with
  | nil =>
      intro p bs vs fuel hch hf
      cases p with
      | none =>
          cases bs with
          | cons b bs => simp [chainCheck] at hch
          | nil =>
              cases vs with
              | cons v vs => simp [chainCheck] at hch
              | nil =>
                  cases fuel with
                  | zero => omega
                  | succ f => exact ⟨rfl, rfl, rfl, rfl⟩
      | some a => simp [chainCheck] at hch
  | cons a rest ih =>
      intro p bs vs fuel hch hf
      cases p with
      | none => simp [chainCheck] at hch
      | some a0 =>
          cases bs with
          | nil => simp [chainCheck] at hch
          | cons b bs1 =>
              cases vs with
              | nil => simp [chainCheck] at hch
              | cons v vs1 =>
                  cases fuel with
                  | zero => omega
                  | succ f =>
                      have hf2 : rest.length < f := by simp at hf; omega
                      cases hg : h.getNode a0 with
                      | none => simp [chainCheck, hg] at hch
                      | some n =>
                          cases hb : h.getBox n.data with
                          | none => simp [chainCheck, hg, hb] at hch
                          | some w =>
                              simp only [chainCheck, hg, hb, Bool.and_eq_true,
                                beq_iff_eq, decide_eq_true_eq] at hch
                              obtain ⟨ha0, ⟨hd, hw⟩, hrest⟩ := hch
                              subst ha0
                              subst hd
                              subst hw
                              obtain ⟨e1, e2, e3, e4⟩ := ih n.next bs1 vs1 f hrest hf2
                              refine ⟨?_, ?_, ?_, ?_⟩
                              · simp [chainNodes, hg, e1]
                              · simp [chainBoxes, hg, e2]
                              · simp [chainData, hg, hb, e3]
                              · simp [g_list_length_h, hg, e4]

theorem chainCheck_linkCheck [DecidableEq α] (h : GHeap α) :
    ∀ (as : List Nat) (p : Option Nat) (bs : List Nat) (vs : List α),
      chainCheck h p as bs vs = true → linkCheck h p as = true := by
  intro as
  induction as with
  | nil =>
      intro p bs vs hch
      cases p with
      | none =>
          cases bs with
          | cons b bs => simp [chainCheck] at hch
          | nil =>
              cases vs with
              | cons v vs => simp [chainCheck] at hch
              | nil => rfl
      | some a => simp [chainCheck] at hch
  | cons a rest ih =>
      intro p bs vs hch
      cases p with
      | none => simp [chainCheck] at hch
      | some a0 =>
          cases bs with
          | nil => simp [chainCheck] at hch
          | cons b bs1 =>
              cases vs with
              | nil => simp [chainCheck] at hch
              | cons v vs1 =>
                  cases hg : h.getNode a0 with
                  | none => simp [chainCheck, hg] at hch
                  | some n =>
                      cases hb : h.getBox n.data with
                      | none => simp [chainCheck, hg, hb] at hch
                      | some w =>
                          simp only [chainCheck, hg, hb, Bool.and_eq_true,
                            beq_iff_eq, decide_eq_true_eq] at hch
                          obtain ⟨ha0, ⟨hd, hw⟩, hrest⟩ := hch
                          subst ha0
                          simp only [linkCheck, hg, Bool.and_eq_true, beq_iff_eq]
                          exact ⟨trivial, ih n.next bs1 vs1 hrest⟩

theorem chainCheck_length_eq [DecidableEq α] (h : GHeap α) :
    ∀ (as : List Nat) (p : Option Nat) (bs : List Nat) (vs : List α),
      chainCheck h p as bs vs = true →
      as.length = bs.length ∧ as.length = vs.length := by
  intro as
  induction as with
  | nil =>
      intro p bs vs hch
      cases p with
      | none =>
          cases bs with
          | cons b bs => simp [chainCheck] at hch
          | nil =>
              cases vs with
              | cons v vs => simp [chainCheck] at hch
              | nil => exact ⟨rfl, rfl⟩
      | some a => simp [chainCheck] at hch
  | cons a rest ih =>
      intro p bs vs hch
      cases p with
      | none => simp [chainCheck] at hch
      | some a0 =>
          cases bs with
          | nil => simp [chainCheck] at hch
          | cons b bs1 =>
              cases vs with
              | nil => simp [chainCheck] at hch
              | cons v vs1 =>
                  cases hg : h.getNode a0 with
                  | none => simp [chainCheck, hg] at hch
                  | some n =>
                      cases hb : h.getBox n.data with
                      | none => simp [chainCheck, hg, hb] at hch
                      | some w =>
                          simp only [chainCheck, hg, hb, Bool.and_eq_true,
                            beq_iff_eq, decide_eq_true_eq] at hch
                          obtain ⟨ha0, ⟨hd, hw⟩, hrest⟩ := hch
                          obtain ⟨l1, l2⟩ := ih n.next bs1 vs1 hrest
                          simp only [List.length_cons]
                          omega

theorem chainCheck_forall₂ [DecidableEq α] (h : GHeap α) :
    ∀ (as : List Nat) (p : Option Nat) (bs : List Nat) (vs : List α),
      chainCheck h p as bs vs = true →
      List.Forall₂ (fun b v => h.getBox b = some v) bs vs := by
  intro as
  induction as with
  | nil =>
      intro p bs vs hch
      cases p with
      | none =>
          cases bs with
          | cons b bs => simp [chainCheck] at hch
          | nil =>
              cases vs with
              | cons v vs => simp [chainCheck] at hch
              | nil => exact List.Forall₂.nil
      | some a => simp [chainCheck] at hch
  | cons a rest ih =>
      intro p bs vs hch
      cases p with
      | none => simp [chainCheck] at hch
      | some a0 =>
          cases bs with
          | nil => simp [chainCheck] at hch
          | cons b bs1 =>
              cases vs with
              | nil => simp [chainCheck] at hch
              | cons v vs1 =>
                  cases hg : h.getNode a0 with
                  | none => simp [chainCheck, hg] at hch
                  | some n =>
                      cases hb : h.getBox n.data with
                      | none => simp [chainCheck, hg, hb] at hch
                      | some w =>
                          simp only [chainCheck, hg, hb, Bool.and_eq_true,
                            beq_iff_eq, decide_eq_true_eq] at hch
                          obtain ⟨ha0, ⟨hd, hw⟩, hrest⟩ := hch
                          refine List.Forall₂.cons ?_ (ih n.next bs1 vs1 hrest)
                          rw [← hd, hb, hw]

theorem chainCheck_congr [DecidableEq α] (h h2 : GHeap α) :
    ∀ (as : List Nat) (p : Option Nat) (bs : List Nat) (vs : List α),
      (∀ a ∈ as, h2.getNode a = h.getNode a) →
      (∀ b ∈ bs, h2.getBox b = h.getBox b) →
      chainCheck h p as bs vs = true → chainCheck h2 p as bs vs = true := by
  intro as
  induction as with
  | nil =>
      intro p bs vs hpn hpb hch
      cases p with
      | none =>
          cases bs with
          | cons b bs => simp [chainCheck] at hch
          | nil =>
              cases vs with
              | cons v vs => simp [chainCheck] at hch
              | nil => rfl
      | some a => simp [chainCheck] at hch
  | cons a rest ih =>
      intro p bs vs hpn hpb hch
      cases p with
      | none => simp [chainCheck] at hch
      | some a0 =>
          cases bs with
          | nil => simp [chainCheck] at hch
          | cons b bs1 =>
              cases vs with
              | nil => simp [chainCheck] at hch
              | cons v vs1 =>
                  cases hg : h.getNode a0 with
                  | none => simp [chainCheck, hg] at hch
                  | some n =>
                      cases hb : h.getBox n.data with
                      | none => simp [chainCheck, hg, hb] at hch
                      | some w =>
                          simp only [chainCheck, hg, hb, Bool.and_eq_true,
                            beq_iff_eq, decide_eq_true_eq] at hch
                          obtain ⟨ha0, ⟨hd, hw⟩, hrest⟩ := hch
                          subst ha0
                          have hg2 : h2.getNode a0 = some n := by
                            rw [hpn a0 (by simp), hg]
                          have hb2 : h2.getBox n.data = some w := by
                            rw [hd, hpb b (by simp), ← hd, hb]
                          simp only [chainCheck, hg2, hb2, Bool.and_eq_true,
                            beq_iff_eq, decide_eq_true_eq]
                          exact ⟨trivial, ⟨hd, hw⟩,
                            ih n.next bs1 vs1
                              (fun x hx => hpn x (by simp [hx]))
                              (fun x hx => hpb x (by simp [hx])) hrest⟩

theorem linkCheck_congr (h h2 : GHeap α) :
    ∀ (as : List Nat) (p : Option Nat),
      (∀ a ∈ as, h2.getNode a = h.getNode a) →
      linkCheck h p as = true → linkCheck h2 p as = true := by
  intro as
  induction as with
  | nil =>
      intro p hpres hlk
      cases p with
      | none => rfl
      | some a => simp [linkCheck] at hlk
  | cons a rest ih =>
      intro p hpres hlk
      cases p with
      | none => simp [linkCheck] at hlk
      | some a0 =>
          cases hg : h.getNode a0 with
          | none => simp [linkCheck, hg] at hlk
          | some n =>
              simp only [linkCheck, hg, Bool.and_eq_true, beq_iff_eq] at hlk
              obtain ⟨ha0, hrest⟩ := hlk
              subst ha0
              have hg2 : h2.getNode a0 = some n := by rw [hpres a0 (by simp), hg]
              simp only [linkCheck, hg2, Bool.and_eq_true, beq_iff_eq]
              exact ⟨trivial, ih n.next (fun x hx => hpres x (by simp [hx])) hrest⟩

theorem linkCheck_length (h : GHeap α) :
    ∀ (as : List Nat) (p : Option Nat) (fuel : Nat),
      linkCheck h p as = true → as.length < fuel →
      g_list_length_h h p fuel = some as.length := by
  intro as
  induction as with
  | nil =>
      intro p fuel hlk hf
      cases p with
      | none =>
          cases fuel with
          | zero => omega
          | succ f => rfl
      | some a => simp [linkCheck] at hlk
  | cons a rest ih =>
      intro p fuel hlk hf
      cases p with
      | none => simp [linkCheck] at hlk
      | some a0 =>
          cases fuel with
          | zero => omega
          | succ f =>
              have hf2 : rest.length < f := by simp at hf; omega
              cases hg : h.getNode a0 with
              | none => simp [linkCheck, hg] at hlk
              | some n =>
                  simp only [linkCheck, hg, Bool.and_eq_true, beq_iff_eq] at hlk
                  obtain ⟨ha0, hrest⟩ := hlk
                  subst ha0
                  simp [g_list_length_h, hg, ih n.next f hrest hf2]

theorem getNode_consHeap_ne (h : GHeap α) (k nc a : Nat) (nd : GNode)
    (hne : a ≠ k) :
    GHeap.getNode { h with nodes := (k, nd) :: h.nodes, nodeCtr := nc } a
      = h.getNode a := by
  show (((k, nd) :: h.nodes).find? (fun e => e.1 == a)).map Prod.snd = h.getNode a
  rw [List.find?_cons_of_neg _ (by simpa using Ne.symm hne)]
  rfl

theorem getNode_consHeap_self (h : GHeap α) (k nc : Nat) (nd : GNode) :
    GHeap.getNode { h with nodes := (k, nd) :: h.nodes, nodeCtr := nc } k
      = some nd := by
  show (((k, nd) :: h.nodes).find? (fun e => e.1 == k)).map Prod.snd = some nd
  rw [List.find?_cons_of_pos _ (by simp)]
  rfl

theorem buildChain_cons (h : GHeap α) (pr : Option Nat) (d : Nat)
    (ds : List Nat) :
    buildChain h pr (d :: ds) =
      ((buildChain
          { h with
            nodes := (h.nodeCtr,
              ⟨d, pr, if ds.isEmpty then none else some (h.nodeCtr + 1)⟩)
                :: h.nodes,
            nodeCtr := h.nodeCtr + 1 }
          (some h.nodeCtr) ds).1,
        some h.nodeCtr) := rfl

theorem buildChain_boxes (ds : List Nat) :
    ∀ (h : GHeap α) (pr : Option Nat), (buildChain h pr ds).1.boxes = h.boxes := by
  induction ds with
  | nil => intro h pr; rfl
  | cons d ds1 ihd =>
      intro h pr
      rw [buildChain_cons]
      exact ihd _ _

theorem buildChain_nodeCtr (ds : List Nat) :
    ∀ (h : GHeap α) (pr : Option Nat),
      (buildChain h pr ds).1.nodeCtr = h.nodeCtr + ds.length := by
  induction ds with
  | nil => intro h pr; rfl
  | cons d ds1 ihd =>
      intro h pr
      rw [buildChain_cons]
      have := ihd
        { h with
          nodes := (h.nodeCtr,
            ⟨d, pr, if ds1.isEmpty then none else some (h.nodeCtr + 1)⟩)
              :: h.nodes,
          nodeCtr := h.nodeCtr + 1 }
        (some h.nodeCtr)
      rw [this]
      simp [List.length_cons]
      omega

theorem buildChain_head (ds : List Nat) :
    ∀ (h : GHeap α) (pr : Option Nat),
      (buildChain h pr ds).2 = if ds.isEmpty then none else some h.nodeCtr := by
  induction ds with
  | nil => intro h pr; rfl
  | cons d ds1 ihd =>
      intro h pr
      rw [buildChain_cons]
      simp

theorem buildChain_getNode_lt (ds : List Nat) :
    ∀ (h : GHeap α) (pr : Option Nat) (a : Nat), a < h.nodeCtr →
      (buildChain h pr ds).1.getNode a = h.getNode a := by
  induction ds with
  | nil => intro h pr a ha; rfl
  | cons d ds1 ihd =>
      intro h pr a ha
      rw [buildChain_cons]
      have h2 := ihd
        { h with
          nodes := (h.nodeCtr,
            ⟨d, pr, if ds1.isEmpty then none else some (h.nodeCtr + 1)⟩)
              :: h.nodes,
          nodeCtr := h.nodeCtr + 1 }
        (some h.nodeCtr) a (by simp; omega)
      rw [h2]
      exact getNode_consHeap_ne h _ _ a _ (by omega)

theorem buildChain_chainCheck [DecidableEq α] (ds : List Nat) :
    ∀ (h : GHeap α) (pr : Option Nat) (vs : List α),
      List.Forall₂ (fun b v => h.getBox b = some v) ds vs →
      chainCheck (buildChain h pr ds).1 (buildChain h pr ds).2
        (List.range' h.nodeCtr ds.length) ds vs = true := by
  induction ds with
  | nil =>
      intro h pr vs hf
      cases hf
      rfl
  | cons d ds1 ihd =>
      intro h pr vs hf
      cases vs with
      | nil => cases hf
      | cons v vs1 =>
          obtain ⟨hbv, htl⟩ := List.forall₂_cons.mp hf
          rw [buildChain_cons]
          have hrec := ihd
            { h with
              nodes := (h.nodeCtr,
                ⟨d, pr, if ds1.isEmpty then none else some (h.nodeCtr + 1)⟩)
                  :: h.nodes,
              nodeCtr := h.nodeCtr + 1 }
            (some h.nodeCtr) vs1 (htl.imp fun _ _ hh => hh)
          have hg : (buildChain
              { h with
                nodes := (h.nodeCtr,
                  ⟨d, pr, if ds1.isEmpty then none else some (h.nodeCtr + 1)⟩)
                    :: h.nodes,
                nodeCtr := h.nodeCtr + 1 }
              (some h.nodeCtr) ds1).1.getNode h.nodeCtr
              = some ⟨d, pr, if ds1.isEmpty then none else some (h.nodeCtr + 1)⟩ := by
            rw [buildChain_getNode_lt ds1 _ _ _ (by simp)]
            exact getNode_consHeap_self h _ _ _
          have hbx : (buildChain
              { h with
                nodes := (h.nodeCtr,
                  ⟨d, pr, if ds1.isEmpty then none else some (h.nodeCtr + 1)⟩)
                    :: h.nodes,
                nodeCtr := h.nodeCtr + 1 }
              (some h.nodeCtr) ds1).1.getBox d = some v := by
            rw [getBox_congr _ h (by rw [buildChain_boxes])]
            exact hbv
          have hhead := buildChain_head ds1
            { h with
              nodes := (h.nodeCtr,
                ⟨d, pr, if ds1.isEmpty then none else some (h.nodeCtr + 1)⟩)
                  :: h.nodes,
              nodeCtr := h.nodeCtr + 1 }
            (some h.nodeCtr)
          rw [hhead] at hrec
          simp only [List.length_cons, List.range'_succ]
          simp only [chainCheck, hg, hbx, Bool.and_eq_true, beq_iff_eq,
            decide_eq_true_eq, and_true, true_and, eq_self_iff_true]
          exact hrec

theorem linkCheck_last (h : GHeap α) :
    ∀ (as : List Nat) (p : Option Nat) (fuel : Nat) (o : Option Nat),
      linkCheck h p as = true → g_list_last_h h p fuel = some o →
      o = as.getLast? := by
  intro as
  induction as with
  | nil =>
      intro p fuel o hlk hl
      cases p with
      | none =>
          simp [g_list_last_h] at hl
          simp [hl.symm]
      | some a => simp [linkCheck] at hlk
  | cons a rest ih =>
      intro p fuel o hlk hl
      cases p with
      | none => simp [linkCheck] at hlk
      | some a0 =>
          cases hg : h.getNode a0 with
          | none => simp [linkCheck, hg] at hlk
          | some n =>
              simp only [linkCheck, hg, Bool.and_eq_true, beq_iff_eq] at hlk
              obtain ⟨ha0, hrest⟩ := hlk
              subst ha0
              cases fuel with
              | zero => simp [g_list_last_h] at hl
              | succ f =>
                  cases hnx : n.next with
                  | none =>
                      simp [g_list_last_h, hg, hnx] at hl
                      rw [hnx] at hrest
                      cases rest with
                      | nil => simp [hl.symm]
                      | cons r rs => simp [linkCheck] at hrest
                  | some b =>
                      simp only [g_list_last_h, hg, hnx] at hl
                      rw [hnx] at hrest
                      cases rest with
                      | nil => simp [linkCheck] at hrest
                      | cons r rs =>
                          rw [List.getLast?_cons_cons]
                          exact ih (some b) f o hrest hl

theorem g_list_append_h_frame (h : GHeap α) (p : Option Nat) (box fuel2 : Nat)
    (as2 : List Nat) (h3 : GHeap α) (q2 : Option Nat)
    (hlk : linkCheck h p as2 = true)
    (has2 : ∀ b ∈ as2, b < h.nodeCtr)
    (happ : g_list_append_h h p box fuel2 = some (h3, q2)) :
    ∀ a, a ∉ as2 → a ≠ h.nodeCtr → h3.getNode a = h.getNode a := by
  intro a hna hctr
  cases p with
  | none =>
      simp only [g_list_append_h, GHeap.allocNode] at happ
      injection happ with hpair
      injection hpair with hh hq
      subst hh
      exact getNode_consHeap_ne h _ _ a _ hctr
  | some a0 =>
      simp only [g_list_append_h, GHeap.allocNode] at happ
      split at happ
      · exact Option.noConfusion happ
      · exact Option.noConfusion happ
      · rename_i la hl
        split at happ
        · exact Option.noConfusion happ
        · rename_i ln hgla
          injection happ with hpair
          injection hpair with hh hq
          subst hh
          have hlk1 : linkCheck
              ({ h with
                  nodes := (h.nodeCtr, ⟨box, none, none⟩) :: h.nodes,
                  nodeCtr := h.nodeCtr + 1 } : GHeap α) (some a0) as2 = true := by
            refine linkCheck_congr h _ as2 (some a0) ?_ hlk
            intro b hb
            exact getNode_consHeap_ne h _ _ b _ (by have := has2 b hb; omega)
          have hlast := linkCheck_last _ as2 (some a0) fuel2 (some la) hlk1 hl
          have hmem : la ∈ as2 := getLast?_mem_of_eq_some hlast.symm
          have hne_la : a ≠ la := fun hEq => hna (hEq ▸ hmem)
          rw [getNode_setNode_ne _ _ _ _ hctr]
          rw [getNode_setNode_ne _ _ _ _ hne_la]
          exact getNode_consHeap_ne h _ _ a _ hctr

theorem appendH_frame (h : GHeap α) (p : Option Nat) (x : α) (fuel2 : Nat)
    (as2 : List Nat) (h3 : GHeap α) (q2 : Option Nat)
    (hlk : linkCheck h p as2 = true)
    (has2 : ∀ b ∈ as2, b < h.nodeCtr)
    (happ : appendH h p x fuel2 = some (h3, q2)) :
    ∀ a, a ∉ as2 → a ≠ h.nodeCtr → h3.getNode a = h.getNode a := by
  intro a hna hctr
  simp only [appendH, GHeap.allocBox] at happ
  have hlk2 : linkCheck
      ({ h with boxes := (h.boxCtr, x) :: h.boxes, boxCtr := h.boxCtr + 1 } : GHeap α)
      p as2 = true :=
    linkCheck_congr h _ as2 p (fun b _ => rfl) hlk
  have hres := g_list_append_h_frame _ p h.boxCtr fuel2 as2 h3 q2 hlk2 has2
    happ a hna hctr
  rw [hres]
  rfl

end GlibList

/-! Claim theorems. -/

namespace GlibList

/-- Claim C1: the claim says that after `concat` of `[1, 2]` and `[3, 4]`
the first list is `[1, 2, 3, 4]` and the second list cleanly relinquishes
its nodes.  Evaluating the code at that input: the consumed argument is
dropped at the end of `List::concat`, its `Drop` impl frees the two
absorbed nodes through the unchanged pointer, and reading the receiver
chain afterwards walks into freed memory (`none`), not `[1, 2, 3, 4]`. -/
theorem concat_consume_use_after_free :
    scenarioConcatDrop = some none ∧
    scenarioConcatDrop ≠ some (some [1, 2, 3, 4]) := by
  exact ⟨rfl, by decide⟩

/-- Claim C2: the claim says `clear()` empties the list, `len()` then
returns 0, and the contained values are destroyed.  Evaluating the code
on the list `[1]`: `clear` runs `g_list_free` but leaves `self.pointer`
unchanged, so `len()` walks a freed node (undefined behaviour, `none`
rather than `some 0`), and the boxed value is leaked (1 box still
allocated), not destroyed. -/
theorem clear_leaves_dangling_pointer :
    scenarioClear = some (none, 1) ∧ scenarioClear ≠ some (some 0, 0) := by
  exact ⟨rfl, by decide⟩

/-- Claim C3 counterexample: the claim says `clone()` yields cloned
values with no sharing.  On the list `[1, 2]` the cloned chain carries
exactly the same box addresses as the original (`[0, 1]` on both sides):
the boxed values are shared, not cloned. -/
theorem clone_shares_boxed_values :
    cloneCopyBoxes = cloneOrigBoxes ∧ cloneOrigBoxes = some (some [0, 1]) := by
  exact ⟨rfl, rfl⟩

/-- Claim C3, amended: for every list state (a heap `h` in which head
pointer `p` reaches the node chain `as` carrying box addresses `bs` and
values `vs`), `clone()` (that is, `g_list_copy`) succeeds and produces a
list equal in element sequence to the original (`vs`) and made of fresh
nodes (the node addresses are exactly the next `bs.length` allocator
values, all at or above the old node counter), but carrying the SAME box
addresses `bs`: the boxed element values are shared with the original
rather than cloned.  The original still reads as `vs` afterwards, and
appending any value `x` to the clone leaves the length of the original
at `vs.length`. -/
theorem clone_shallow_copy_structurally_independent (h : GHeap Nat)
    (p : Option Nat) (as bs vs : List Nat) (x : Nat) (fuel : Nat)
    (hch : chainCheck h p as bs vs = true)
    (hnodes : ∀ a ∈ as, a < h.nodeCtr)
    (hfuel : as.length < fuel) :
    ∃ hq : GHeap Nat × Option Nat,
      cloneH h p fuel = some hq ∧
      chainData hq.1 hq.2 fuel = some vs ∧
      chainBoxes hq.1 hq.2 fuel = some bs ∧
      chainNodes hq.1 hq.2 fuel = some (List.range' h.nodeCtr bs.length) ∧
      (∀ a ∈ List.range' h.nodeCtr bs.length, h.nodeCtr ≤ a) ∧
      chainData hq.1 p fuel = some vs ∧
      (∀ h3 q2 fuel2, appendH hq.1 hq.2 x fuel2 = some (h3, q2) →
        g_list_length_h h3 p fuel = some vs.length) := by
  obtain ⟨hlen_bs, hlen_vs⟩ := chainCheck_length_eq h as p bs vs hch
  obtain ⟨hN, hB, hD, hL⟩ := chainCheck_sound h as p bs vs fuel hch hfuel
  have hclone : cloneH h p fuel = some (buildChain h none bs) := by
    simp [cloneH, g_list_copy_h, hB]
  have hf2 := chainCheck_forall₂ h as p bs vs hch
  have hcc2 := buildChain_chainCheck bs h none vs hf2
  have hlt2 : (List.range' h.nodeCtr bs.length).length < fuel := by
    rw [List.length_range']
    omega
  obtain ⟨cN, cB, cD, cL⟩ :=
    chainCheck_sound _ (List.range' h.nodeCtr bs.length) _ bs vs fuel hcc2 hlt2
  have hpresN : ∀ a ∈ as, (buildChain h none bs).1.getNode a = h.getNode a :=
    fun a ha => buildChain_getNode_lt bs h none a (hnodes a ha)
  have hpresB : ∀ b ∈ bs, (buildChain h none bs).1.getBox b = h.getBox b :=
    fun b _ => getBox_congr _ h (buildChain_boxes bs h none) b
  have hch2 := chainCheck_congr h _ as p bs vs hpresN hpresB hch
  refine ⟨buildChain h none bs, hclone, cD, cB, cN, ?_, ?_, ?_⟩
  · intro a ha
    exact (List.mem_range'_1.mp ha).1
  · exact (chainCheck_sound _ as p bs vs fuel hch2 hfuel).2.2.1
  · intro h3 q2 fuel2 happ
    have hlk2 : linkCheck (buildChain h none bs).1 (buildChain h none bs).2
        (List.range' h.nodeCtr bs.length) = true :=
      chainCheck_linkCheck _ (List.range' h.nodeCtr bs.length) _ bs vs hcc2
    have haslt : ∀ b ∈ List.range' h.nodeCtr bs.length,
        b < (buildChain h none bs).1.nodeCtr := by
      intro b hb
      have hmb := List.mem_range'_1.mp hb
      rw [buildChain_nodeCtr]
      omega
    have hframe := appendH_frame _ _ x fuel2 _ h3 q2 hlk2 haslt happ
    have hlk_orig : linkCheck (buildChain h none bs).1 p as = true :=
      linkCheck_congr h _ as p hpresN (chainCheck_linkCheck h as p bs vs hch)
    have hlk3 : linkCheck h3 p as = true := by
      refine linkCheck_congr _ h3 as p ?_ hlk_orig
      intro a ha
      refine hframe a ?_ ?_
      · intro hmem
        have h1m := (List.mem_range'_1.mp hmem).1
        have h2m := hnodes a ha
        omega
      · have h2m := hnodes a ha
        rw [buildChain_nodeCtr]
        omega
    have hlen3 := linkCheck_length h3 as p fuel hlk3 hfuel
    rw [hlen3, hlen_vs]

/-- Witness for the amended claim C3 at the concrete list `[1, 2]`: the
heap `demoHeap` with head pointer node 0, chain nodes `[0, 1]`, boxes
`[0, 1]`, values `[1, 2]`, appended value 9. -/
theorem clone_shallow_copy_structurally_independent_witness :
    chainCheck demoHeap (some 0) [0, 1] [0, 1] [1, 2] = true ∧
    (∃ hq : GHeap Nat × Option Nat,
      cloneH demoHeap (some 0) 100 = some hq ∧
      chainData hq.1 hq.2 100 = some [1, 2] ∧
      chainBoxes hq.1 hq.2 100 = some [0, 1] ∧
      chainNodes hq.1 hq.2 100 = some (List.range' 2 2) ∧
      (∀ a ∈ List.range' 2 2, 2 ≤ a) ∧
      chainData hq.1 (some 0) 100 = some [1, 2] ∧
      (∀ h3 q2 fuel2, appendH hq.1 hq.2 9 fuel2 = some (h3, q2) →
        g_list_length_h h3 (some 0) 100 = some 2)) :=
  ⟨by decide,
   clone_shallow_copy_structurally_independent demoHeap (some 0) [0, 1] [0, 1]
     [1, 2] 9 100 (by decide) (by decide) (by decide)⟩

/-- Claim C4: the claim says out-of-range access reports an OutOfBounds
condition.  Evaluating the code: `nth 1` on `[5]` transmutes the null
data pointer returned by `g_list_nth_data` into a reference (`none`:
undefined behaviour, no reported condition), and the `Index` impl
truncates the index with `as u32`, so index 2 to the 32 on `[7]` returns
the head element instead of failing. -/
theorem nth_out_of_range_unchecked :
    nth ([5] : List Nat) 1 = none ∧
    index ([7] : List Nat) 4294967296 = some 7 ∧
    nth ([5] : List Nat) 0 = some 5 := by
  exact ⟨rfl, rfl, rfl⟩

/-- Claim C5: the claim says `first`/`last` on an empty list report a
recoverable EmptyContainer condition.  Evaluating the code: on the empty
list `g_list_first`/`g_list_last` return null and the wrapper
dereferences that null node pointer unconditionally (`none`: undefined
behaviour, no reported condition); on `[3, 4]` they do return the head
and tail elements. -/
theorem first_last_empty_null_deref :
    first ([] : List Nat) = none ∧ last ([] : List Nat) = none ∧
    first [3, 4] = some 3 ∧ last [3, 4] = some 4 := by
  exact ⟨rfl, rfl, rfl, rfl⟩

/-- Claim C6: for every finite sequence S, the list built by
`from_iter`/`from_vec` (repeated append) yields exactly S under the
forward cursor and the reversal of S under the backward cursor, and each
cursor returns `None` exactly when its chain is exhausted. -/
theorem iter_yields_order_rev_iter_reversed (S : List Nat) :
    drain (iter (from_iter S)) = S ∧
    drainRev (rev_iter (from_iter S)) = S.reverse ∧
    (∀ st : List Nat, elemNext st = none ↔ st = []) ∧
    (∀ st : List Nat, revElemNext st = none ↔ st = []) := by
  refine ⟨?_, ?_, ?_, ?_⟩
  · rw [iter, from_iter_eq, drain_eq]
  · rw [rev_iter, from_iter_eq, drainRev_eq]
  · intro st; cases st <;> simp [elemNext]
  · intro st; cases st <;> simp [revElemNext]

/-- Claim C7: `insert(value, position)` inserts the value before the node
at the 0-based position when the position is in range, and appends at the
tail when the position is negative or not less than the length; in
particular `insert(99, 1)` on `[0, 1, 2]` gives `[0, 99, 1, 2]` and
`insert(5, 100)` on `[0, 1, 2]` gives `[0, 1, 2, 5]`. -/
theorem insert_before_position_or_clamp (p : List Nat) (x : Nat) (pos : Int) :
    (0 ≤ pos → pos < (p.length : Int) →
      insert p x pos = p.take pos.toNat ++ x :: p.drop pos.toNat) ∧
    (pos < 0 ∨ (p.length : Int) ≤ pos → insert p x pos = p ++ [x]) ∧
    insert [0, 1, 2] 99 1 = [0, 99, 1, 2] ∧
    insert [0, 1, 2] 5 100 = [0, 1, 2, 5] := by
  refine ⟨?_, ?_, rfl, rfl⟩
  · intro h0 hlt
    rw [insert, g_list_insert, if_neg (by omega), if_neg (by omega)]
  · intro h
    rcases h with h | h
    · rw [insert, g_list_insert, if_pos h]
    · rw [insert, g_list_insert]
      by_cases hneg : pos < 0
      · rw [if_pos hneg]
      · rw [if_neg hneg, if_pos h]

/-- Witness for claim C7 at the concrete inputs of the spec scenario. -/
theorem insert_before_position_or_clamp_witness :
    insert [0, 1, 2] 99 1 = [0, 1, 2].take 1 ++ 99 :: [0, 1, 2].drop 1 ∧
    insert [0, 1, 2] 5 100 = [0, 1, 2] ++ [5] := by
  refine ⟨?_, ?_⟩
  · have h := (insert_before_position_or_clamp [0, 1, 2] 99 1).1
      (by decide) (by decide)
    simpa using h
  · exact (insert_before_position_or_clamp [0, 1, 2] 5 100).2.1
      (Or.inr (by decide))

/-- Claim C8: `reverse()` applied twice restores the original element
order. -/
theorem reverse_involutive (p : List Nat) : reverse (reverse p) = p := by
  simp [reverse, g_list_reverse]

/-- Claim C9: `List::concat` discards the head returned by
`g_list_concat` and never reassigns `self.pointer`, so concatenating any
list M onto an empty receiver leaves the receiver empty (and in
particular not equal to a non-empty M); the heap scenario confirms the
receiver chain reads as empty after concatenating `[3, 4]` onto it. -/
theorem concat_empty_receiver_stays_empty (M : List Nat) :
    concat [] M = [] ∧ (M ≠ [] → concat [] M ≠ M) ∧
    scenarioConcatEmpty = some (some []) := by
  refine ⟨rfl, ?_, rfl⟩
  intro hM h
  exact hM (h.symm.trans rfl)

/-- Witness for claim C9 at M = `[1]`. -/
theorem concat_empty_receiver_stays_empty_witness :
    concat ([] : List Nat) [1] = [] ∧ concat ([] : List Nat) [1] ≠ [1] :=
  ⟨(concat_empty_receiver_stays_empty [1]).1,
   (concat_empty_receiver_stays_empty [1]).2.1 (by decide)⟩

/-- Claim C10: the `Index` impl truncates the `usize` index to 32 bits
(`as u32`) before calling `nth`, so indexed access agrees with `nth` at
the index reduced modulo 2 to the 32, and any two indices congruent
modulo 2 to the 32 designate the same element. -/
theorem index_truncates_to_u32 (L : List Nat) (i j : Nat) :
    index L i = nth L (i % 4294967296) ∧
    (i % 4294967296 = j % 4294967296 → index L i = index L j) := by
  refine ⟨rfl, ?_⟩
  intro h
  simp only [index, usizeToU32, h]

/-- Witness for claim C10: on the list `[7]`, index 2 to the 32 and
index 0 designate the same element. -/
theorem index_truncates_to_u32_witness :
    4294967296 % 4294967296 = 0 % 4294967296 ∧
    index ([7] : List Nat) 4294967296 = index ([7] : List Nat) 0 :=
  ⟨by decide, (index_truncates_to_u32 [7] 4294967296 0).2 (by decide)⟩

end GlibList
